import Mathlib

/-!
Verification development for the `nebula-cert-comment` tool.

The Go sources are shallowly embedded here.  Go byte strings are modelled
as `List Char` where each character stands for one byte (code point =
byte value); all markers and literals involved are ASCII, so byte-wise
prefix tests coincide with character-wise ones.  The external certificate
library (`github.com/slackhq/nebula/cert`) is modelled abstractly by a
`Cert` record of the accessor results the tool reads, and a `decode`
function parameter standing for `cert.UnmarshalCertificateFromPEM`
combined with the fallible `Fingerprint` computation.
-/

/-- Byte-wise model of Go `strings.HasPrefix s p`. -/
def hasPrefixGo (s p : List Char) : Bool :=
  match s, p with
  | _, [] => true
  | [], _ :: _ => false
  | c :: cs, d :: ds => c = d && hasPrefixGo cs ds

/-- Concatenation of a list of byte strings (Go `bytes.Buffer` contents
built from successive writes). -/
def joinLines : List (List Char) → List Char
  | [] => []
  | l :: ls => l ++ joinLines ls

/-- Model of Go `strings.Join gs ","`. -/
def joinComma : List (List Char) → List Char
  | [] => []
  | [g] => g
  | g :: gs => g ++ ',' :: joinComma gs

/-- Model of Go `strings.Split s sep` for a one-byte separator. -/
def splitOnChar (sep : Char) : List Char → List (List Char)
  | [] => [[]]
  | c :: cs =>
    if c = sep then [] :: splitOnChar sep cs
    else
      match splitOnChar sep cs with
      | [] => [[c]]
      | p :: ps => (c :: p) :: ps

/-- ASCII lower-casing of one byte, as Go `strings.ToLower` acts on
ASCII input (the only case relevant to the recognized format names). -/
def lowerChar (c : Char) : Char :=
  if 'A' ≤ c ∧ c ≤ 'Z' then Char.ofNat (c.toNat + 32) else c

/-- ASCII lower-casing of a byte string. -/
def lowerStr (s : List Char) : List Char := s.map lowerChar

/-- Decimal digit character for `n < 10` (larger arguments never occur). -/
def digitChar (n : Nat) : Char :=
  match n with
  | 0 => '0' | 1 => '1' | 2 => '2' | 3 => '3' | 4 => '4'
  | 5 => '5' | 6 => '6' | 7 => '7' | 8 => '8' | 9 => '9'
  | _ => '0'

/-- Fuel-driven digit loop of `strconv.Itoa`; the fuel only needs to
exceed the number of digits. -/
def itoaAux : Nat → Nat → List Char
  | 0, _ => []
  | fuel + 1, n =>
    if n < 10 then [digitChar n]
    else itoaAux fuel (n / 10) ++ [digitChar (n % 10)]

/-- Model of Go `strconv.Itoa` on non-negative integers. -/
def itoa (n : Nat) : List Char := itoaAux (n + 1) n

/-- Zero padding to a given width, as in the `%04d` / `%02d` verbs. -/
def padZero (w : Nat) (s : List Char) : List Char :=
  List.replicate (w - s.length) '0' ++ s

/-- Lower-case hexadecimal digit for `n < 16`, as used by `strconv`
escape output (larger arguments never occur). -/
def hexDigit (n : Nat) : Char :=
  match n with
  | 0 => '0' | 1 => '1' | 2 => '2' | 3 => '3' | 4 => '4'
  | 5 => '5' | 6 => '6' | 7 => '7' | 8 => '8' | 9 => '9'
  | 10 => 'a' | 11 => 'b' | 12 => 'c' | 13 => 'd' | 14 => 'e' | 15 => 'f'
  | _ => '0'

/-- Escape of one byte under Go `%q` (`strconv.Quote`).  Printable ASCII
other than quote and backslash is kept, the standard control escapes are
used, and every other byte is hex-escaped.  (Bytes above `0x7F` are
hex-escaped; Go would render printable multi-byte UTF-8 runes directly,
a divergence that affects only non-ASCII data and no claim here.) -/
def quoteChar (c : Char) : List Char :=
  if c = '"' then ['\\', '"']
  else if c = '\\' then ['\\', '\\']
  else if 32 ≤ c.toNat ∧ c.toNat ≤ 126 then [c]
  else if c = '\x07' then ['\\', 'a']
  else if c = '\x08' then ['\\', 'b']
  else if c = '\x0c' then ['\\', 'f']
  else if c = '\n' then ['\\', 'n']
  else if c = '\r' then ['\\', 'r']
  else if c = '\t' then ['\\', 't']
  else if c = '\x0b' then ['\\', 'v']
  else ['\\', 'x', hexDigit (c.toNat / 16 % 16), hexDigit (c.toNat % 16)]

/-- Body of a Go `%q` quotation. -/
def quoteBody : List Char → List Char
  | [] => []
  | c :: cs => quoteChar c ++ quoteBody cs

/-- Model of Go `%q` formatting (`strconv.Quote`). -/
def goQuote (s : List Char) : List Char := '"' :: quoteBody s ++ ['"']

/-- Abstract view of a decoded nebula certificate: the results of the
accessor calls the tool performs.  `fingerprintRes` and `jsonRes` are
`Option`s because `Fingerprint()` and `json.Marshal` are fallible;
curve, networks and unsafe networks are carried already rendered, as the
tool only ever joins or prints their `String()` forms. -/
structure Cert where
  name : List Char
  version : Nat
  curveStr : List Char
  groups : List (List Char)
  notAfterY : Nat
  notAfterM : Nat
  notAfterD : Nat
  fingerprintRes : Option (List Char)
  networksStrs : List (List Char)
  unsafeNetworksStrs : List (List Char)
  jsonRes : Option (List Char)
deriving DecidableEq

/-- Model of `comment` (`main.go` lines 244-267): the full byte string the
function writes to `outBuf` for a decoded certificate, or `none` when the
fingerprint computation fails.  (On failure Go leaves a partial prefix in
`outBuf`, but `processFile` then aborts the file with an error, so the
partial content is never observable.) -/
def commentFor (c : Cert) : Option (List Char) :=
  match c.fingerprintRes with
  | none => none
  | some fp =>
    some ("# nebula: name=".toList ++ goQuote c.name
      ++ (if 1 < c.version then " version=".toList ++ itoa c.version else [])
      ++ (if c.groups = [] then [] else " groups=".toList ++ joinComma c.groups)
      ++ " notAfter=".toList ++ padZero 4 (itoa c.notAfterY)
      ++ '-' :: padZero 2 (itoa c.notAfterM)
      ++ '-' :: padZero 2 (itoa c.notAfterD)
      ++ " fingerprint=".toList ++ fp ++ ['\n'])

/-- The `comment` routine as a function from the cert-buffer bytes to the
emitted comment line, with the external certificate decoder abstracted as
`decode`. -/
def commentOf (decode : List Char → Option Cert) (s : List Char) :
    Option (List Char) :=
  (decode s).bind commentFor

/-- BEGIN marker prefix tested by `processFile` (`main.go` line 318). -/
def beginMarker : List Char := "-----BEGIN NEBULA CERTIFICATE-----".toList

/-- END marker prefix tested by `processFile` (`main.go` line 321). -/
def endMarker : List Char := "-----END NEBULA CERTIFICATE-----".toList

/-- Comment-line prefix tested by `processFile` (`main.go` line 336). -/
def annMarker : List Char := "# nebula: name=".toList

/-- Per-line scanner state of `processor.processFile`: the `inCert` and
`foundCert` flags and the contents of `p.outBuf` and `p.crtBuf`. -/
structure ScanSt where
  inCert : Bool
  foundCert : Bool
  outBuf : List Char
  crtBuf : List Char
deriving DecidableEq

/-- Scanner state at the top of `processFile`, after the buffer resets. -/
def initSt : ScanSt := ⟨false, false, [], []⟩

/-- One iteration of the line loop of `processor.processFile`
(`main.go` lines 315-344): the `switch` on the line just read.  `cmt`
stands for the `comment` call; `none` propagates its error. -/
def stepLine (cmt : List Char → Option (List Char)) (st : ScanSt)
    (text : List Char) : Option ScanSt :=
  if hasPrefixGo text beginMarker then
    some { st with inCert := true, crtBuf := st.crtBuf ++ text }
  else if hasPrefixGo text endMarker then
    match cmt (st.crtBuf ++ text) with
    | none => none
    | some ann =>
      some { inCert := false, foundCert := true,
             outBuf := st.outBuf ++ ann ++ st.crtBuf ++ text, crtBuf := [] }
  else if hasPrefixGo text annMarker then
    some st
  else if st.inCert then
    some { st with crtBuf := st.crtBuf ++ text }
  else
    some { st with outBuf := st.outBuf ++ text }

/-- The scanner loop over a list of already-split lines. -/
def runLines (cmt : List Char → Option (List Char)) :
    ScanSt → List (List Char) → Option ScanSt
  | st, [] => some st
  | st, t :: ts =>
    match stepLine cmt st t with
    | none => none
    | some st2 => runLines cmt st2 ts

/-- Splitting loop behind `readLines`; `cur` is the reversed portion of
the current line read so far. -/
def readLinesAux (cur : List Char) : List Char → List (List Char)
  | [] => [cur.reverse]
  | c :: cs =>
    if c = '\n' then (cur.reverse ++ ['\n']) :: readLinesAux [] cs
    else readLinesAux (c :: cur) cs

/-- Successive `ReadBytes('\n')` results on `s`: every returned chunk in
order, including the final chunk returned together with `io.EOF` (which
is empty exactly when `s` ends in a newline or is empty).  The loop body
of `processFile` runs once for each element. -/
def readLines (s : List Char) : List (List Char) := readLinesAux [] s

/-- Diagnostic written to standard error for a binary file
(`main.go` lines 308-310). -/
def skipBinaryMsg (path : List Char) : List Char :=
  "skipping binary file: ".toList ++ goQuote path ++ ['\n']

/-- Observable result of `processor.processFile`: the returned
`foundCert` flag, the final contents of `p.outBuf`, and the lines
written to standard error. -/
structure ScanRes where
  foundCert : Bool
  outBuf : List Char
  errLog : List (List Char)
deriving DecidableEq

/-- Model of `processor.processFile` (`main.go` lines 269-350) on the
byte contents of one file.  `cmt` abstracts the `comment` call (in the
tool it is `commentOf decode` for the external decoder); `none` models a
returned error.  The first chunk read is checked for a `NUL` byte; a hit
stops processing before any line logic, reporting no certificate found
and logging only in debug mode. -/
def processFile (cmt : List Char → Option (List Char)) (debug : Bool)
    (path input : List Char) : Option ScanRes :=
  match readLines input with
  | [] => some ⟨false, [], []⟩
  | first :: rest =>
    if '\x00' ∈ first then
      some ⟨false, [], if debug then [skipBinaryMsg path] else []⟩
    else
      match runLines cmt initSt (first :: rest) with
      | none => none
      | some st => some ⟨st.foundCert, st.outBuf, []⟩

/-- Field selectors of the format DSL (`types.go` lines 16-29), including
the zero value `FormatInvalid`. -/
inductive FormatType where
  | FormatInvalid
  | FormatName
  | FormatVersion
  | FormatCurve
  | FormatGroups
  | FormatNotAfter
  | FormatFingerprint
  | FormatNetworks
  | FormatUnsafeNetworks
  | FormatJSON
deriving DecidableEq

open FormatType

/-- Stringer name of a format type (the `-linecomment` names). -/
def FormatType.str : FormatType → List Char
  | FormatInvalid => "FormatInvalid".toList
  | FormatName => "name".toList
  | FormatVersion => "version".toList
  | FormatCurve => "curve".toList
  | FormatGroups => "groups".toList
  | FormatNotAfter => "notAfter".toList
  | FormatFingerprint => "fingerprint".toList
  | FormatNetworks => "networks".toList
  | FormatUnsafeNetworks => "unsafeNetworks".toList
  | FormatJSON => "json".toList

/-- Model of `ParseFormatType` (`types.go` lines 35-44): case-insensitive
match of the token against the stringer name table, `FormatInvalid` when
nothing matches.  (Matching the table entry of index 0 itself also
yields `FormatType(0) = FormatInvalid` in Go, which this chain's final
else branch reproduces.) -/
def ParseFormatType (s : List Char) : FormatType :=
  if lowerStr s = "name".toList then FormatName
  else if lowerStr s = "version".toList then FormatVersion
  else if lowerStr s = "curve".toList then FormatCurve
  else if lowerStr s = "groups".toList then FormatGroups
  else if lowerStr s = "notafter".toList then FormatNotAfter
  else if lowerStr s = "fingerprint".toList then FormatFingerprint
  else if lowerStr s = "networks".toList then FormatNetworks
  else if lowerStr s = "unsafenetworks".toList then FormatUnsafeNetworks
  else if lowerStr s = "json".toList then FormatJSON
  else FormatInvalid

/-- One parsed entry of the format DSL (`types.go` lines 46-51).  The Go
field `Type` is renamed `type` because `Type` is a Lean keyword. -/
structure FormatEntry where
  type : FormatType
  Exclude : List Char
  OmitEmpty : Bool
deriving DecidableEq

/-- Errors of the format-string parser, carrying the offending text as
the `%q` verbs of `types.go` lines 71 and 83 do. -/
inductive ParseErr where
  | invalidType (entry : List Char)
  | invalidModifier (tok : List Char)
deriving DecidableEq

/-- The modifier loop of `ParseFormatEntry` (`types.go` lines 75-86). -/
def applyMods : FormatEntry → List (List Char) → Except ParseErr FormatEntry
  | fe, [] => .ok fe
  | fe, p :: ps =>
    if p = ['?'] then applyMods { fe with OmitEmpty := true } ps
    else if hasPrefixGo p ['!', '='] then
      applyMods { fe with Exclude := p.drop 2 } ps
    else .error (.invalidModifier p)

/-- Model of `ParseFormatEntry` (`types.go` lines 67-88). -/
def ParseFormatEntry (entry : List Char) : Except ParseErr FormatEntry :=
  match splitOnChar ':' entry with
  | [] => .error (.invalidType entry)
  | p0 :: mods =>
    let ft := ParseFormatType p0
    if ft = FormatInvalid then .error (.invalidType entry)
    else applyMods ⟨ft, [], false⟩ mods

/-- The collection loop of `ParseFormatEntries` (`types.go` lines 56-62). -/
def parseAll : List (List Char) → Except ParseErr (List FormatEntry)
  | [] => .ok []
  | e :: es =>
    match ParseFormatEntry e with
    | .error err => .error err
    | .ok fe =>
      match parseAll es with
      | .error err => .error err
      | .ok fes => .ok (fe :: fes)

/-- Model of `ParseFormatEntries` (`types.go` lines 53-65). -/
def ParseFormatEntries (entries : List Char) : Except ParseErr (List FormatEntry) :=
  parseAll (splitOnChar ',' entries)

/-- One byte of the class `[-:_a-zA-Z0-9]`. -/
def basicChar (c : Char) : Bool :=
  c = '-' || c = ':' || c = '_' ||
    ('a' ≤ c && c ≤ 'z') || ('A' ≤ c && c ≤ 'Z') || ('0' ≤ c && c ≤ '9')

/-- Model of the regular expression `^[-:_a-zA-Z0-9]*$` of `types.go`
line 32: every byte is in the class. -/
def reBasicStringMatch (s : List Char) : Bool := s.all basicChar

/-- Model of `FormatEntry.AddQuotes` (`types.go` lines 142-145). -/
def FormatEntry.AddQuotes (_f : FormatEntry) (s : List Char) : Bool :=
  !reBasicStringMatch s

/-- Model of `FormatEntry.String` (`types.go` lines 112-140): the raw
value of the selected field, `none` on a fingerprint / JSON error or on
the invalid type. -/
def FormatEntry.String (f : FormatEntry) (c : Cert) : Option (List Char) :=
  match f.type with
  | FormatName => some c.name
  | FormatVersion => some (itoa c.version)
  | FormatCurve => some c.curveStr
  | FormatGroups => some (joinComma c.groups)
  | FormatNotAfter =>
    some (padZero 4 (itoa c.notAfterY) ++ '-' :: padZero 2 (itoa c.notAfterM)
      ++ '-' :: padZero 2 (itoa c.notAfterD))
  | FormatFingerprint => c.fingerprintRes
  | FormatNetworks => some (joinComma c.networksStrs)
  | FormatUnsafeNetworks => some (joinComma c.unsafeNetworksStrs)
  | FormatJSON => c.jsonRes
  | FormatInvalid => none

/-- Model of `FormatEntry.Format` (`types.go` lines 90-110): the byte
string appended to `outBuf` for this entry (empty when the entry is
suppressed), `none` when the value computation fails. -/
def FormatEntry.Format (f : FormatEntry) (c : Cert) : Option (List Char) :=
  match f.String c with
  | none => none
  | some s =>
    if f.OmitEmpty ∧ s = [] then some []
    else if f.Exclude ≠ [] ∧ f.Exclude = s then some []
    else if f.type = FormatJSON then some (' ' :: s)
    else if f.AddQuotes s then some (' ' :: (f.type.str ++ '=' :: goQuote s))
    else some (' ' :: (f.type.str ++ '=' :: s))

/-- A fully read line: newline-terminated with no interior newline. -/
def lineWF (l : List Char) : Prop := ∃ a, l = a ++ ['\n'] ∧ '\n' ∉ a

/-- Well-formedness of the lines accumulated in `crtBuf` while scanning a
block, as needed to replay them: none terminates the block early or is
dropped as a stale comment line, and the first (if any) is a BEGIN line. -/
def blockOK (B : List (List Char)) : Prop :=
  (∀ l ∈ B, lineWF l ∧ hasPrefixGo l endMarker = false ∧
    hasPrefixGo l annMarker = false) ∧
  (B = [] ∨ hasPrefixGo B.headI beginMarker = true)

/-- Shape of a fully emitted output, viewed as its list of lines, for an
output that may still be extended: an interleaving of passed-through
plain lines and `comment ++ block` chunks.  The Boolean index records
whether at least one block chunk occurs. -/
inductive EmittedMid (cmt : List Char → Option (List Char)) :
    Bool → List (List Char) → Prop where
  | nil : EmittedMid cmt false []
  | pass (l : List Char) (b : Bool) (M : List (List Char)) :
      lineWF l → hasPrefixGo l beginMarker = false →
      hasPrefixGo l endMarker = false → hasPrefixGo l annMarker = false →
      EmittedMid cmt b M → EmittedMid cmt b (l :: M)
  | block (a : List Char) (B : List (List Char)) (e : List Char)
      (b : Bool) (M : List (List Char)) :
      cmt (joinLines B ++ e) = some a →
      hasPrefixGo a annMarker = true → lineWF a → blockOK B →
      hasPrefixGo e endMarker = true → lineWF e →
      EmittedMid cmt b M → EmittedMid cmt true (a :: (B ++ e :: M))

/-- Shape of a finished emitted output: as `EmittedMid`, but the final
line of the file may lack its trailing newline. -/
inductive Emitted (cmt : List Char → Option (List Char)) :
    Bool → List (List Char) → Prop where
  | nil : Emitted cmt false []
  | pass (l : List Char) (b : Bool) (M : List (List Char)) :
      lineWF l → hasPrefixGo l beginMarker = false →
      hasPrefixGo l endMarker = false → hasPrefixGo l annMarker = false →
      Emitted cmt b M → Emitted cmt b (l :: M)
  | passLast (u : List Char) : '\n' ∉ u →
      hasPrefixGo u beginMarker = false → hasPrefixGo u endMarker = false →
      hasPrefixGo u annMarker = false → Emitted cmt false [u]
  | block (a : List Char) (B : List (List Char)) (e : List Char)
      (b : Bool) (M : List (List Char)) :
      cmt (joinLines B ++ e) = some a →
      hasPrefixGo a annMarker = true → lineWF a → blockOK B →
      hasPrefixGo e endMarker = true → lineWF e →
      Emitted cmt b M → Emitted cmt true (a :: (B ++ e :: M))
  | blockLast (a : List Char) (B : List (List Char)) (e : List Char) :
      cmt (joinLines B ++ e) = some a →
      hasPrefixGo a annMarker = true → lineWF a → blockOK B →
      hasPrefixGo e endMarker = true → '\n' ∉ e →
      Emitted cmt true (a :: (B ++ [e]))

/-- The scanner invariant maintained across newline-terminated lines:
the output so far is a finished-chunk interleaving, and the certificate
buffer holds the replayable lines of the currently open block. -/
def stInv (cmt : List Char → Option (List Char)) (st : ScanSt) : Prop :=
  (∃ b M, EmittedMid cmt b M ∧ st.outBuf = joinLines M ∧ st.foundCert = b) ∧
  (st.inCert = false → st.crtBuf = []) ∧
  (st.inCert = true → ∃ B, st.crtBuf = joinLines B ∧ B ≠ [] ∧ blockOK B)

/-- Certificate fields whose raw bytes the `comment` routine interpolates
contain no newline.  This holds of well-formed certificates; without it
the emitted comment would span several physical lines. -/
def certNLFree (c : Cert) : Prop :=
  (∀ g ∈ c.groups, '\n' ∉ g) ∧
  (∀ fp, c.fingerprintRes = some fp → '\n' ∉ fp)

/-- Specification-side predicate: a modifier token the parser accepts. -/
def goodMod (p : List Char) : Bool :=
  p = ['?'] || hasPrefixGo p ['!', '=']

theorem hasPrefixGo_of_append (p r : List Char) :
    hasPrefixGo (p ++ r) p = true := by
  induction p with
  | nil => cases r <;> rfl
  | cons c cs ih => simp [hasPrefixGo, ih]

theorem exists_of_hasPrefixGo {s p : List Char} (h : hasPrefixGo s p = true) :
    ∃ r, s = p ++ r := by
  induction p generalizing s with
  | nil => exact ⟨s, rfl⟩
  | cons d ds ih =>
    cases s with
    | nil => simp [hasPrefixGo] at h
    | cons c cs =>
      simp only [hasPrefixGo, Bool.and_eq_true, decide_eq_true_eq] at h
      obtain ⟨r, hr⟩ := ih h.2
      exact ⟨r, by simp [h.1, hr]⟩

theorem hasPrefixGo_comparable : ∀ s p q : List Char,
    hasPrefixGo s p = true → hasPrefixGo s q = true →
    hasPrefixGo p q = true ∨ hasPrefixGo q p = true := by
  intro s
  induction s with
  | nil =>
    intro p q hp hq
    cases p with
    | nil => right; cases q <;> rfl
    | cons a ps => simp [hasPrefixGo] at hp
  | cons c cs ih =>
    intro p q hp hq
    cases p with
    | nil => right; cases q <;> rfl
    | cons a ps =>
      cases q with
      | nil => left; rfl
      | cons b qs =>
        simp only [hasPrefixGo, Bool.and_eq_true, decide_eq_true_eq] at hp hq
        obtain ⟨ha, hp2⟩ := hp
        obtain ⟨hb, hq2⟩ := hq
        subst ha
        subst hb
        rcases ih ps qs hp2 hq2 with h | h
        · left; simp [hasPrefixGo, h]
        · right; simp [hasPrefixGo, h]

theorem not_end_of_begin {l : List Char} (h : hasPrefixGo l beginMarker = true) :
    hasPrefixGo l endMarker = false := by
  by_contra hc
  rcases hasPrefixGo_comparable l beginMarker endMarker h
      (by revert hc; cases hasPrefixGo l endMarker <;> simp) with h2 | h2 <;>
    revert h2 <;> decide

theorem not_begin_of_end {l : List Char} (h : hasPrefixGo l endMarker = true) :
    hasPrefixGo l beginMarker = false := by
  by_contra hc
  have hb : hasPrefixGo l beginMarker = true := by
    revert hc; cases hasPrefixGo l beginMarker <;> simp
  rw [not_end_of_begin hb] at h
  cases h

theorem not_begin_of_ann {l : List Char} (h : hasPrefixGo l annMarker = true) :
    hasPrefixGo l beginMarker = false := by
  by_contra hc
  have hb : hasPrefixGo l beginMarker = true := by
    revert hc; cases hasPrefixGo l beginMarker <;> simp
  rcases hasPrefixGo_comparable l annMarker beginMarker h hb with h2 | h2 <;>
    revert h2 <;> decide

theorem not_end_of_ann {l : List Char} (h : hasPrefixGo l annMarker = true) :
    hasPrefixGo l endMarker = false := by
  by_contra hc
  have hb : hasPrefixGo l endMarker = true := by
    revert hc; cases hasPrefixGo l endMarker <;> simp
  rcases hasPrefixGo_comparable l annMarker endMarker h hb with h2 | h2 <;>
    revert h2 <;> decide

theorem readLinesAux_term (a s : List Char) (ha : '\n' ∉ a) :
    ∀ cur, readLinesAux cur (a ++ '\n' :: s) =
      (cur.reverse ++ a ++ ['\n']) :: readLinesAux [] s := by
  induction a with
  | nil => intro cur; simp [readLinesAux]
  | cons c a' ih =>
    intro cur
    have hc : ¬ c = '\n' := fun h => ha (h ▸ List.mem_cons_self c a')
    have ha' : '\n' ∉ a' := fun h => ha (List.mem_cons_of_mem c h)
    simp only [List.cons_append, readLinesAux, if_neg hc, List.append_eq]
    rw [ih ha']
    simp

theorem readLinesAux_last (u : List Char) (hu : '\n' ∉ u) :
    ∀ cur, readLinesAux cur u = [cur.reverse ++ u] := by
  induction u with
  | nil => intro cur; simp [readLinesAux]
  | cons c u' ih =>
    intro cur
    have hc : ¬ c = '\n' := fun h => hu (h ▸ List.mem_cons_self c u')
    have hu' : '\n' ∉ u' := fun h => hu (List.mem_cons_of_mem c h)
    simp only [readLinesAux, if_neg hc, ih hu']
    simp

theorem readLines_cons_of_lineWF {l : List Char} (h : lineWF l) (s : List Char) :
    readLines (l ++ s) = l :: readLines s := by
  obtain ⟨a, rfl, ha⟩ := h
  have := readLinesAux_term a s ha []
  simpa [readLines] using this

theorem readLines_of_no_nl {u : List Char} (hu : '\n' ∉ u) :
    readLines u = [u] := by
  simpa [readLines] using readLinesAux_last u hu []

theorem readLines_join {M : List (List Char)} (hM : ∀ l ∈ M, lineWF l)
    {u : List Char} (hu : '\n' ∉ u) :
    readLines (joinLines M ++ u) = M ++ [u] := by
  induction M with
  | nil => simpa [joinLines] using readLines_of_no_nl hu
  | cons l M' ih =>
    have hl : lineWF l := hM l (List.mem_cons_self l M')
    have hM' : ∀ x ∈ M', lineWF x := fun x hx => hM x (List.mem_cons_of_mem l hx)
    calc readLines (joinLines (l :: M') ++ u)
        = readLines (l ++ (joinLines M' ++ u)) := by simp [joinLines]
      _ = l :: readLines (joinLines M' ++ u) := readLines_cons_of_lineWF hl _
      _ = l :: (M' ++ [u]) := by rw [ih hM']
      _ = (l :: M') ++ [u] := rfl

theorem readLinesAux_shape (s : List Char) :
    ∀ cur, '\n' ∉ cur → ∃ T u, readLinesAux cur s = T ++ [u] ∧
      (∀ l ∈ T, lineWF l) ∧ '\n' ∉ u := by
  induction s with
  | nil =>
    intro cur hcur
    exact ⟨[], cur.reverse, by simp [readLinesAux],
      by simp, by simpa using hcur⟩
  | cons c cs ih =>
    intro cur hcur
    by_cases hc : c = '\n'
    · subst hc
      obtain ⟨T, u, h1, h2, h3⟩ := ih [] (by simp)
      refine ⟨(cur.reverse ++ ['\n']) :: T, u, ?_, ?_, h3⟩
      · simp [readLinesAux, h1]
      · intro l hl
        rcases List.mem_cons.mp hl with rfl | hl2
        · exact ⟨cur.reverse, rfl, by simpa using hcur⟩
        · exact h2 l hl2
    · obtain ⟨T, u, h1, h2, h3⟩ := ih (c :: cur)
        (by intro hm; rcases List.mem_cons.mp hm with h | h;
            · exact hc h.symm
            · exact hcur h)
      exact ⟨T, u, by simp [readLinesAux, hc, h1], h2, h3⟩

theorem readLines_shape (s : List Char) :
    ∃ T u, readLines s = T ++ [u] ∧ (∀ l ∈ T, lineWF l) ∧ '\n' ∉ u :=
  readLinesAux_shape s [] (by simp)

theorem runLines_append (cmt : List Char → Option (List Char))
    (xs ys : List (List Char)) : ∀ st, runLines cmt st (xs ++ ys) =
      (runLines cmt st xs).bind fun s => runLines cmt s ys := by
  induction xs with
  | nil => intro st; rfl
  | cons t ts ih =>
    intro st
    simp only [List.cons_append, runLines]
    cases stepLine cmt st t with
    | none => rfl
    | some st2 => exact ih st2

theorem joinLines_append (X Y : List (List Char)) :
    joinLines (X ++ Y) = joinLines X ++ joinLines Y := by
  induction X with
  | nil => rfl
  | cons l ls ih => simp [joinLines, ih]

theorem not_ann_of_begin {l : List Char} (h : hasPrefixGo l beginMarker = true) :
    hasPrefixGo l annMarker = false := by
  by_contra hc
  have ha : hasPrefixGo l annMarker = true := by
    revert hc; cases hasPrefixGo l annMarker <;> simp
  rw [not_begin_of_ann ha] at h
  cases h

theorem not_ann_of_end {l : List Char} (h : hasPrefixGo l endMarker = true) :
    hasPrefixGo l annMarker = false := by
  by_contra hc
  have ha : hasPrefixGo l annMarker = true := by
    revert hc; cases hasPrefixGo l annMarker <;> simp
  rw [not_end_of_ann ha] at h
  cases h

theorem emittedMid_append {cmt b1 M1 b2 M2} (h1 : EmittedMid cmt b1 M1)
    (h2 : EmittedMid cmt b2 M2) : EmittedMid cmt (b1 || b2) (M1 ++ M2) := by
  induction h1 with
  | nil => simpa using h2
  | pass l b M hw hb he ha hM ih => exact .pass l _ _ hw hb he ha ih
  | block a B e b M hc hann hwa hB hend hwe hM ih =>
    have heq : (a :: (B ++ e :: M)) ++ M2 = a :: (B ++ e :: (M ++ M2)) := by
      simp
    rw [Bool.true_or, heq]
    exact .block a B e _ _ hc hann hwa hB hend hwe (by simpa using ih)

theorem emittedMid_emitted_append {cmt b1 M1 b2 M2}
    (h1 : EmittedMid cmt b1 M1) (h2 : Emitted cmt b2 M2) :
    Emitted cmt (b1 || b2) (M1 ++ M2) := by
  induction h1 with
  | nil => simpa using h2
  | pass l b M hw hb he ha hM ih => exact .pass l _ _ hw hb he ha ih
  | block a B e b M hc hann hwa hB hend hwe hM ih =>
    have heq : (a :: (B ++ e :: M)) ++ M2 = a :: (B ++ e :: (M ++ M2)) := by
      simp
    rw [Bool.true_or, heq]
    exact .block a B e _ _ hc hann hwa hB hend hwe (by simpa using ih)

theorem emittedMid_to_emitted {cmt b M} (h : EmittedMid cmt b M) :
    Emitted cmt b M := by
  have := emittedMid_emitted_append h (@Emitted.nil cmt)
  simpa using this

theorem stInv_init (cmt : List Char → Option (List Char)) : stInv cmt initSt :=
  ⟨⟨false, [], .nil, rfl, rfl⟩, fun _ => rfl, fun h => by cases h⟩

theorem stepLine_begin {cmt : List Char → Option (List Char)} {st : ScanSt}
    {t : List Char} (hb : hasPrefixGo t beginMarker = true) :
    stepLine cmt st t = some { st with inCert := true, crtBuf := st.crtBuf ++ t } := by
  simp [stepLine, hb]

theorem stepLine_end_some {cmt : List Char → Option (List Char)} {st : ScanSt}
    {t a : List Char} (hb : hasPrefixGo t beginMarker = false)
    (he : hasPrefixGo t endMarker = true) (hc : cmt (st.crtBuf ++ t) = some a) :
    stepLine cmt st t =
      some ⟨false, true, st.outBuf ++ a ++ st.crtBuf ++ t, []⟩ := by
  simp [stepLine, hb, he, hc]

theorem stepLine_end_none {cmt : List Char → Option (List Char)} {st : ScanSt}
    {t : List Char} (hb : hasPrefixGo t beginMarker = false)
    (he : hasPrefixGo t endMarker = true) (hc : cmt (st.crtBuf ++ t) = none) :
    stepLine cmt st t = none := by
  simp [stepLine, hb, he, hc]

theorem stepLine_ann {cmt : List Char → Option (List Char)} {st : ScanSt}
    {t : List Char} (hb : hasPrefixGo t beginMarker = false)
    (he : hasPrefixGo t endMarker = false)
    (ha : hasPrefixGo t annMarker = true) :
    stepLine cmt st t = some st := by
  simp [stepLine, hb, he, ha]

theorem stepLine_in {cmt : List Char → Option (List Char)} {st : ScanSt}
    {t : List Char} (hb : hasPrefixGo t beginMarker = false)
    (he : hasPrefixGo t endMarker = false)
    (ha : hasPrefixGo t annMarker = false) (hic : st.inCert = true) :
    stepLine cmt st t = some { st with crtBuf := st.crtBuf ++ t } := by
  simp [stepLine, hb, he, ha, hic]

theorem stepLine_out {cmt : List Char → Option (List Char)} {st : ScanSt}
    {t : List Char} (hb : hasPrefixGo t beginMarker = false)
    (he : hasPrefixGo t endMarker = false)
    (ha : hasPrefixGo t annMarker = false) (hic : st.inCert = false) :
    stepLine cmt st t = some { st with outBuf := st.outBuf ++ t } := by
  simp [stepLine, hb, he, ha, hic]

theorem stepLine_inv {cmt : List Char → Option (List Char)}
    (Hcmt : ∀ s x, cmt s = some x →
      hasPrefixGo x annMarker = true ∧ lineWF x)
    {st st' : ScanSt} {t : List Char} (hw : lineWF t)
    (hinv : stInv cmt st) (hstep : stepLine cmt st t = some st') :
    stInv cmt st' := by
  obtain ⟨⟨b, M, hM, hout, hfound⟩, hni, hic⟩ := hinv
  obtain ⟨ic, fc, ob, cb⟩ := st
  dsimp only at hout hfound hni hic
  by_cases hb : hasPrefixGo t beginMarker = true
  · rw [stepLine_begin hb] at hstep
    obtain rfl := Option.some.inj hstep
    dsimp only [stInv]
    refine ⟨⟨b, M, hM, hout, hfound⟩, ?_, ?_⟩
    · intro h; cases h
    intro _
    by_cases hic0 : ic = true
    · obtain ⟨B, hcb, hBne, hBok⟩ := hic hic0
      refine ⟨B ++ [t], ?_, by simp, ?_, ?_⟩
      · simp [hcb, joinLines_append, joinLines]
      · intro l hl
        rcases List.mem_append.mp hl with h1 | h1
        · exact hBok.1 l h1
        · rcases List.mem_singleton.mp h1 with rfl
          exact ⟨hw, not_end_of_begin hb, not_ann_of_begin hb⟩
      · right
        rcases hBok.2 with h1 | h1
        · exact absurd h1 hBne
        · cases B with
          | nil => exact absurd rfl hBne
          | cons B0 Bs => simpa using h1
    · have hf : ic = false := by revert hic0; cases ic <;> simp
      have hcb : cb = [] := hni hf
      refine ⟨[t], by simp [hcb, joinLines], by simp, ?_, Or.inr (by simpa using hb)⟩
      intro l hl
      rcases List.mem_singleton.mp hl with rfl
      exact ⟨hw, not_end_of_begin hb, not_ann_of_begin hb⟩
  · have hb' : hasPrefixGo t beginMarker = false := by
      revert hb; cases hasPrefixGo t beginMarker <;> simp
    by_cases he : hasPrefixGo t endMarker = true
    · cases hcm : cmt (cb ++ t) with
      | none =>
        rw [stepLine_end_none hb' he hcm] at hstep
        cases hstep
      | some a =>
        rw [stepLine_end_some hb' he hcm] at hstep
        obtain rfl := Option.some.inj hstep
        obtain ⟨hann, hwa⟩ := Hcmt _ _ hcm
        have hBex : ∃ B, cb = joinLines B ∧ blockOK B := by
          by_cases hic0 : ic = true
          · obtain ⟨B, hcb, _, hBok⟩ := hic hic0
            exact ⟨B, hcb, hBok⟩
          · have hf : ic = false := by revert hic0; cases ic <;> simp
            exact ⟨[], hni hf, ⟨by simp, Or.inl rfl⟩⟩
        obtain ⟨B, hcb, hBok⟩ := hBex
        refine ⟨⟨b || true, M ++ (a :: (B ++ [t])), ?_, ?_, by simp⟩,
          fun _ => rfl, fun h => by cases h⟩
        · refine emittedMid_append hM
            (EmittedMid.block a B t false [] ?_ hann hwa hBok he hw .nil)
          rw [← hcb]
          exact hcm
        · simp only [joinLines_append, joinLines]
          simp [hout, hcb, joinLines]
    · have he' : hasPrefixGo t endMarker = false := by
        revert he; cases hasPrefixGo t endMarker <;> simp
      by_cases ha : hasPrefixGo t annMarker = true
      · rw [stepLine_ann hb' he' ha] at hstep
        obtain rfl := Option.some.inj hstep
        exact ⟨⟨b, M, hM, hout, hfound⟩, hni, hic⟩
      · have ha' : hasPrefixGo t annMarker = false := by
          revert ha; cases hasPrefixGo t annMarker <;> simp
        by_cases hic0 : ic = true
        · subst hic0
          rw [stepLine_in hb' he' ha' rfl] at hstep
          obtain rfl := Option.some.inj hstep
          dsimp only [stInv]
          refine ⟨⟨b, M, hM, hout, hfound⟩, ?_, ?_⟩
          · intro h; cases h
          intro _
          obtain ⟨B, hcb, hBne, hBok⟩ := hic rfl
          refine ⟨B ++ [t], ?_, by simp, ?_, ?_⟩
          · simp [hcb, joinLines_append, joinLines]
          · intro l hl
            rcases List.mem_append.mp hl with h1 | h1
            · exact hBok.1 l h1
            · rcases List.mem_singleton.mp h1 with rfl
              exact ⟨hw, he', ha'⟩
          · right
            rcases hBok.2 with h1 | h1
            · exact absurd h1 hBne
            · cases B with
              | nil => exact absurd rfl hBne
              | cons B0 Bs => simpa using h1
        · have hf : ic = false := by revert hic0; cases ic <;> simp
          subst hf
          rw [stepLine_out hb' he' ha' rfl] at hstep
          obtain rfl := Option.some.inj hstep
          dsimp only [stInv]
          refine ⟨⟨b, M ++ [t], ?_, ?_, hfound⟩, ?_, ?_⟩
          · have := emittedMid_append hM (EmittedMid.pass t false [] hw hb' he' ha' .nil)
            simpa using this
          · simp [joinLines_append, joinLines, hout]
          · intro _; exact hni rfl
          · intro h; cases h

theorem runLines_inv {cmt : List Char → Option (List Char)}
    (Hcmt : ∀ s x, cmt s = some x →
      hasPrefixGo x annMarker = true ∧ lineWF x) :
    ∀ (ls : List (List Char)) (st st' : ScanSt), (∀ l ∈ ls, lineWF l) →
      stInv cmt st → runLines cmt st ls = some st' → stInv cmt st' := by
  intro ls
  induction ls with
  | nil =>
    intro st st' _ hinv hrun
    obtain rfl := Option.some.inj hrun
    exact hinv
  | cons t ts ih =>
    intro st st' hws hinv hrun
    have hwt : lineWF t := hws t (List.mem_cons_self t ts)
    have hwts : ∀ l ∈ ts, lineWF l := fun l hl => hws l (List.mem_cons_of_mem t hl)
    cases hs : stepLine cmt st t with
    | none => simp [runLines, hs] at hrun
    | some st2 =>
      exact ih st2 st' hwts (stepLine_inv Hcmt hwt hinv hs)
        (by simpa [runLines, hs] using hrun)

theorem run_inner {cmt : List Char → Option (List Char)} :
    ∀ (ls : List (List Char)) (f : Bool) (o c : List Char),
      (∀ l ∈ ls, hasPrefixGo l endMarker = false ∧
        hasPrefixGo l annMarker = false) →
      runLines cmt ⟨true, f, o, c⟩ ls = some ⟨true, f, o, c ++ joinLines ls⟩ := by
  intro ls
  induction ls with
  | nil => intro f o c _; simp [runLines, joinLines]
  | cons t ts ih =>
    intro f o c h
    obtain ⟨he, ha⟩ := h t (List.mem_cons_self t ts)
    have hts : ∀ x ∈ ts, hasPrefixGo x endMarker = false ∧
        hasPrefixGo x annMarker = false :=
      fun x hx => h x (List.mem_cons_of_mem t hx)
    by_cases hb : hasPrefixGo t beginMarker = true
    · have hst := @stepLine_begin cmt ⟨true, f, o, c⟩ t hb
      simp only [runLines, hst]
      have := ih f o (c ++ t) hts
      simpa [joinLines, List.append_assoc] using this
    · have hb' : hasPrefixGo t beginMarker = false := by
        revert hb; cases hasPrefixGo t beginMarker <;> simp
      have hst := @stepLine_in cmt ⟨true, f, o, c⟩ t hb' he ha rfl
      simp only [runLines, hst]
      have := ih f o (c ++ t) hts
      simpa [joinLines, List.append_assoc] using this

theorem step_final {cmt : List Char → Option (List Char)}
    (Hcmt : ∀ s x, cmt s = some x →
      hasPrefixGo x annMarker = true ∧ lineWF x)
    {st st' : ScanSt} {u : List Char} (hu : '\n' ∉ u)
    (hinv : stInv cmt st) (hstep : stepLine cmt st u = some st') :
    ∃ b M, Emitted cmt b M ∧ st'.outBuf = joinLines M ∧ st'.foundCert = b := by
  obtain ⟨⟨b, M, hM, hout, hfound⟩, hni, hic⟩ := hinv
  obtain ⟨ic, fc, ob, cb⟩ := st
  dsimp only at hout hfound hni hic
  by_cases hb : hasPrefixGo u beginMarker = true
  · rw [stepLine_begin hb] at hstep
    obtain rfl := Option.some.inj hstep
    exact ⟨b, M, emittedMid_to_emitted hM, hout, hfound⟩
  · have hb' : hasPrefixGo u beginMarker = false := by
      revert hb; cases hasPrefixGo u beginMarker <;> simp
    by_cases he : hasPrefixGo u endMarker = true
    · cases hcm : cmt (cb ++ u) with
      | none =>
        rw [stepLine_end_none hb' he hcm] at hstep
        cases hstep
      | some a =>
        rw [stepLine_end_some hb' he hcm] at hstep
        obtain rfl := Option.some.inj hstep
        obtain ⟨hann, hwa⟩ := Hcmt _ _ hcm
        have hBex : ∃ B, cb = joinLines B ∧ blockOK B := by
          by_cases hic0 : ic = true
          · obtain ⟨B, hcb, _, hBok⟩ := hic hic0
            exact ⟨B, hcb, hBok⟩
          · have hf : ic = false := by revert hic0; cases ic <;> simp
            exact ⟨[], hni hf, ⟨by simp, Or.inl rfl⟩⟩
        obtain ⟨B, hcb, hBok⟩ := hBex
        refine ⟨b || true, M ++ (a :: (B ++ [u])), ?_, ?_, by simp⟩
        · refine emittedMid_emitted_append hM
            (Emitted.blockLast a B u ?_ hann hwa hBok he hu)
          rw [← hcb]
          exact hcm
        · dsimp only
          simp only [joinLines_append, joinLines]
          simp [hout, hcb]
    · have he' : hasPrefixGo u endMarker = false := by
        revert he; cases hasPrefixGo u endMarker <;> simp
      by_cases ha : hasPrefixGo u annMarker = true
      · rw [stepLine_ann hb' he' ha] at hstep
        obtain rfl := Option.some.inj hstep
        exact ⟨b, M, emittedMid_to_emitted hM, hout, hfound⟩
      · have ha' : hasPrefixGo u annMarker = false := by
          revert ha; cases hasPrefixGo u annMarker <;> simp
        by_cases hic0 : ic = true
        · subst hic0
          rw [stepLine_in hb' he' ha' rfl] at hstep
          obtain rfl := Option.some.inj hstep
          exact ⟨b, M, emittedMid_to_emitted hM, hout, hfound⟩
        · have hf : ic = false := by revert hic0; cases ic <;> simp
          subst hf
          rw [stepLine_out hb' he' ha' rfl] at hstep
          obtain rfl := Option.some.inj hstep
          refine ⟨b, M ++ [u], ?_, ?_, hfound⟩
          · have := emittedMid_emitted_append hM
              (Emitted.passLast u hu hb' he' ha')
            simpa using this
          · dsimp only
            simp [joinLines_append, joinLines, hout]

theorem run_emitted {cmt : List Char → Option (List Char)} {b : Bool}
    {M : List (List Char)} (h : Emitted cmt b M) :
    ∀ f o, runLines cmt ⟨false, f, o, []⟩ M =
      some ⟨false, f || b, o ++ joinLines M, []⟩ := by
  induction h with
  | nil => intro f o; simp [runLines, joinLines]
  | pass l b M hw hb he ha hM ih =>
    intro f o
    have hst := @stepLine_out cmt ⟨false, f, o, []⟩ l hb he ha rfl
    simp only [runLines, hst]
    have := ih f (o ++ l)
    simpa [joinLines, List.append_assoc] using this
  | passLast u hu hb he ha =>
    intro f o
    have hst := @stepLine_out cmt ⟨false, f, o, []⟩ u hb he ha rfl
    simp [runLines, hst, joinLines]
  | block a B e b M hc hann hwa hB hend hwe hM ih =>
    intro f o
    have hst := @stepLine_ann cmt ⟨false, f, o, []⟩ a
      (not_begin_of_ann hann) (not_end_of_ann hann) hann
    simp only [runLines, hst]
    obtain ⟨hBall, hBhead⟩ := hB
    rcases hBhead with rfl | hh
    · have hbe := not_begin_of_end hend
      have hce : cmt ((⟨false, f, o, []⟩ : ScanSt).crtBuf ++ e) = some a := by
        simpa [joinLines] using hc
      have hst2 := @stepLine_end_some cmt ⟨false, f, o, []⟩ e a hbe hend hce
      simp only [List.nil_append, runLines, hst2]
      have := ih true (o ++ a ++ [] ++ e)
      simpa [joinLines, List.append_assoc] using this
    · cases B with
      | nil => exact absurd hh (by decide)
      | cons B0 Bs =>
        have hh0 : hasPrefixGo B0 beginMarker = true := by simpa using hh
        have hst2 := @stepLine_begin cmt ⟨false, f, o, []⟩ B0 hh0
        simp only [List.cons_append, runLines, hst2]
        rw [List.append_eq, runLines_append]
        have hBs : ∀ x ∈ Bs, hasPrefixGo x endMarker = false ∧
            hasPrefixGo x annMarker = false := by
          intro x hx
          have := hBall x (List.mem_cons_of_mem B0 hx)
          exact ⟨this.2.1, this.2.2⟩
        have hinner := @run_inner cmt Bs f o ([] ++ B0) hBs
        rw [hinner]
        simp only [Option.some_bind]
        have hbe := not_begin_of_end hend
        have hce : cmt ((⟨true, f, o, ([] ++ B0) ++ joinLines Bs⟩ : ScanSt).crtBuf
            ++ e) = some a := by
          dsimp only
          rw [show (([] ++ B0) ++ joinLines Bs) ++ e = joinLines (B0 :: Bs) ++ e by
            simp [joinLines]]
          exact hc
        have hst3 := @stepLine_end_some cmt
          ⟨true, f, o, ([] ++ B0) ++ joinLines Bs⟩ e a hbe hend hce
        simp only [runLines, hst3]
        have := ih true (o ++ a ++ (([] ++ B0) ++ joinLines Bs) ++ e)
        simpa [joinLines, joinLines_append, List.append_assoc] using this
  | blockLast a B e hc hann hwa hB hend hu =>
    intro f o
    have hst := @stepLine_ann cmt ⟨false, f, o, []⟩ a
      (not_begin_of_ann hann) (not_end_of_ann hann) hann
    simp only [runLines, hst]
    obtain ⟨hBall, hBhead⟩ := hB
    rcases hBhead with rfl | hh
    · have hbe := not_begin_of_end hend
      have hce : cmt ((⟨false, f, o, []⟩ : ScanSt).crtBuf ++ e) = some a := by
        simpa [joinLines] using hc
      have hst2 := @stepLine_end_some cmt ⟨false, f, o, []⟩ e a hbe hend hce
      simp [List.nil_append, runLines, hst2, joinLines]
    · cases B with
      | nil => exact absurd hh (by decide)
      | cons B0 Bs =>
        have hh0 : hasPrefixGo B0 beginMarker = true := by simpa using hh
        have hst2 := @stepLine_begin cmt ⟨false, f, o, []⟩ B0 hh0
        simp only [List.cons_append, runLines, hst2]
        rw [List.append_eq, runLines_append]
        have hBs : ∀ x ∈ Bs, hasPrefixGo x endMarker = false ∧
            hasPrefixGo x annMarker = false := by
          intro x hx
          have := hBall x (List.mem_cons_of_mem B0 hx)
          exact ⟨this.2.1, this.2.2⟩
        have hinner := @run_inner cmt Bs f o ([] ++ B0) hBs
        rw [hinner]
        simp only [Option.some_bind]
        have hbe := not_begin_of_end hend
        have hce : cmt ((⟨true, f, o, ([] ++ B0) ++ joinLines Bs⟩ : ScanSt).crtBuf
            ++ e) = some a := by
          dsimp only
          rw [show (([] ++ B0) ++ joinLines Bs) ++ e = joinLines (B0 :: Bs) ++ e by
            simp [joinLines]]
          exact hc
        have hst3 := @stepLine_end_some cmt
          ⟨true, f, o, ([] ++ B0) ++ joinLines Bs⟩ e a hbe hend hce
        simp only [runLines, hst3]
        simp [joinLines, joinLines_append, List.append_assoc]

theorem emitted_shape {cmt : List Char → Option (List Char)} {b : Bool}
    {M : List (List Char)} (h : Emitted cmt b M) :
    (∀ l ∈ M, lineWF l) ∨
      (∃ T v, M = T ++ [v] ∧ (∀ l ∈ T, lineWF l) ∧ '\n' ∉ v) := by
  induction h with
  | nil => left; simp
  | pass l b M hw _ _ _ hM ih =>
    rcases ih with hall | ⟨T, v, rfl, hT, hv⟩
    · left
      intro x hx
      rcases List.mem_cons.mp hx with rfl | hx2
      · exact hw
      · exact hall x hx2
    · right
      refine ⟨l :: T, v, rfl, ?_, hv⟩
      intro x hx
      rcases List.mem_cons.mp hx with rfl | hx2
      · exact hw
      · exact hT x hx2
  | passLast u hu _ _ _ => right; exact ⟨[], u, rfl, by simp, hu⟩
  | block a B e b M hc hann hwa hB hend hwe hM ih =>
    rcases ih with hall | ⟨T, v, rfl, hT, hv⟩
    · left
      intro x hx
      simp only [List.mem_cons, List.mem_append] at hx
      rcases hx with rfl | hx | rfl | hx
      · exact hwa
      · exact (hB.1 x hx).1
      · exact hwe
      · exact hall x hx
    · right
      refine ⟨a :: (B ++ e :: T), v, by simp, ?_, hv⟩
      intro x hx
      simp only [List.mem_cons, List.mem_append] at hx
      rcases hx with rfl | hx | rfl | hx
      · exact hwa
      · exact (hB.1 x hx).1
      · exact hwe
      · exact hT x hx
  | blockLast a B e hc hann hwa hB hend hu =>
    right
    refine ⟨a :: B, e, by simp, ?_, hu⟩
    intro x hx
    rcases List.mem_cons.mp hx with rfl | hx2
    · exact hwa
    · exact (hB.1 x hx2).1

theorem emitted_readLines {cmt : List Char → Option (List Char)} {b : Bool}
    {M : List (List Char)} (h : Emitted cmt b M) :
    readLines (joinLines M) = M ∨ readLines (joinLines M) = M ++ [[]] := by
  rcases emitted_shape h with hall | ⟨T, v, rfl, hT, hv⟩
  · right
    have := readLines_join hall (u := []) (by simp)
    simpa using this
  · left
    have := readLines_join hT hv
    rw [joinLines_append]
    simpa [joinLines] using this

theorem processFile_emitted {cmt : List Char → Option (List Char)}
    (Hcmt : ∀ s x, cmt s = some x →
      hasPrefixGo x annMarker = true ∧ lineWF x)
    {debug : Bool} {path input : List Char} {r : ScanRes}
    (h : processFile cmt debug path input = some r) :
    ∃ b M, Emitted cmt b M ∧ r.outBuf = joinLines M ∧ r.foundCert = b := by
  unfold processFile at h
  obtain ⟨T, u, hTu, hT, hu⟩ := readLines_shape input
  cases hL : readLines input with
  | nil =>
    rw [hL] at h
    obtain rfl := Option.some.inj h
    exact ⟨false, [], .nil, rfl, rfl⟩
  | cons first rest =>
    rw [hL] at h
    dsimp only at h
    by_cases hnul : '\x00' ∈ first
    · rw [if_pos hnul] at h
      obtain rfl := Option.some.inj h
      exact ⟨false, [], .nil, rfl, rfl⟩
    · rw [if_neg hnul] at h
      cases hr : runLines cmt initSt (first :: rest) with
      | none => rw [hr] at h; cases h
      | some st =>
        rw [hr] at h
        obtain rfl := Option.some.inj h
        have hsplit : (first :: rest : List (List Char)) = T ++ [u] :=
          hL.symm.trans hTu
        rw [hsplit, runLines_append] at hr
        cases hT1 : runLines cmt initSt T with
        | none => rw [hT1] at hr; cases hr
        | some stT =>
          rw [hT1] at hr
          simp only [Option.some_bind] at hr
          have hinvT : stInv cmt stT :=
            runLines_inv Hcmt T initSt stT hT (stInv_init cmt) hT1
          cases hsu : stepLine cmt stT u with
          | none => simp [runLines, hsu] at hr
          | some st2 =>
            have hst2 : st2 = st := by simpa [runLines, hsu] using hr
            subst hst2
            exact step_final Hcmt hu hinvT hsu

theorem processFile_replay {cmt : List Char → Option (List Char)} {b : Bool}
    {M : List (List Char)} (hM : Emitted cmt b M) (debug : Bool)
    (path : List Char)
    (hnul : '\x00' ∉ (readLines (joinLines M)).headI) :
    processFile cmt debug path (joinLines M) = some ⟨b, joinLines M, []⟩ := by
  have hrunM : runLines cmt initSt M = some ⟨false, b, joinLines M, []⟩ := by
    have := run_emitted hM false []
    simpa [initSt] using this
  rcases emitted_readLines hM with hRL | hRL
  · cases hML : M with
    | nil =>
      rw [hML] at hRL
      simp only [joinLines] at hRL
      have : readLines ([] : List Char) = [[]] := by decide
      rw [this] at hRL
      cases hRL
    | cons m0 Ms =>
      rw [← hML]
      unfold processFile
      rw [hRL, hML]
      dsimp only
      rw [hRL, hML] at hnul
      simp only [List.headI] at hnul
      rw [if_neg hnul]
      rw [← hML, hrunM]
  · cases hL2 : M ++ [[]] with
    | nil => simp at hL2
    | cons f2 rest2 =>
      have hrun2 : runLines cmt initSt (M ++ [[]]) =
          some ⟨false, b, joinLines M, []⟩ := by
        rw [runLines_append, hrunM]
        simp only [Option.some_bind]
        have hst := @stepLine_out cmt ⟨false, b, joinLines M, []⟩ []
          (by decide) (by decide) (by decide) rfl
        simp [runLines, hst]
      unfold processFile
      rw [hRL, hL2]
      dsimp only
      rw [hRL, hL2] at hnul
      simp only [List.headI] at hnul
      rw [if_neg hnul]
      rw [← hL2, hrun2]

theorem hasPrefixGo_mono {s p : List Char} (h : hasPrefixGo s p = true)
    (t : List Char) : hasPrefixGo (s ++ t) p = true := by
  obtain ⟨r, rfl⟩ := exists_of_hasPrefixGo h
  rw [List.append_assoc]
  exact hasPrefixGo_of_append p (r ++ t)

theorem nl_append {x y : List Char} (hx : '\n' ∉ x) (hy : '\n' ∉ y) :
    '\n' ∉ x ++ y := by
  intro h
  rcases List.mem_append.mp h with h1 | h1
  · exact hx h1
  · exact hy h1

theorem nl_cons {c : Char} {y : List Char} (hc : ('\n' : Char) ≠ c)
    (hy : '\n' ∉ y) : '\n' ∉ c :: y := by
  intro h
  rcases List.mem_cons.mp h with h1 | h1
  · exact hc h1
  · exact hy h1

theorem hexDigit_ne_nl (n : Nat) : hexDigit n ≠ '\n' := by
  unfold hexDigit
  split <;> decide

theorem digitChar_ne_nl (n : Nat) : digitChar n ≠ '\n' := by
  unfold digitChar
  split <;> decide

set_option maxHeartbeats 1000000 in
theorem nl_quoteChar (c : Char) : '\n' ∉ quoteChar c := by
  unfold quoteChar
  split_ifs with h1 h2 h3 h4 h5 h6 h7 h8 h9 h10
  · decide
  · decide
  · intro hm
    rcases List.mem_singleton.mp hm with rfl
    exact absurd h3.1 (by decide)
  · decide
  · decide
  · decide
  · decide
  · decide
  · decide
  · decide
  · intro hm
    simp only [List.mem_cons] at hm
    rcases hm with h | h | h | h | h
    · exact absurd h (by decide)
    · exact absurd h (by decide)
    · exact (hexDigit_ne_nl _) h.symm
    · exact (hexDigit_ne_nl _) h.symm
    · exact absurd h (List.not_mem_nil _)

theorem nl_quoteBody (s : List Char) : '\n' ∉ quoteBody s := by
  induction s with
  | nil => simp [quoteBody]
  | cons c cs ih => exact nl_append (nl_quoteChar c) ih

theorem nl_goQuote (s : List Char) : '\n' ∉ goQuote s :=
  nl_cons (by decide) (nl_append (nl_quoteBody s) (by decide))

theorem nl_itoaAux : ∀ fuel n : Nat, '\n' ∉ itoaAux fuel n := by
  intro fuel
  induction fuel with
  | zero => intro n; simp [itoaAux]
  | succ f ih =>
    intro n
    unfold itoaAux
    by_cases h : n < 10
    · rw [if_pos h]
      exact nl_cons (fun he => digitChar_ne_nl n he.symm) (by simp)
    · rw [if_neg h]
      exact nl_append (ih _)
        (nl_cons (fun he => digitChar_ne_nl _ he.symm) (by simp))

theorem nl_itoa (n : Nat) : '\n' ∉ itoa n := nl_itoaAux _ n

theorem nl_pad {s : List Char} (w : Nat) (hs : '\n' ∉ s) :
    '\n' ∉ padZero w s := by
  refine nl_append ?_ hs
  intro h
  rcases (List.mem_replicate.mp h).2 with h2
  exact absurd h2 (by decide)

theorem nl_joinComma : ∀ gs : List (List Char),
    (∀ g ∈ gs, '\n' ∉ g) → '\n' ∉ joinComma gs := by
  intro gs
  induction gs with
  | nil => intro _; simp [joinComma]
  | cons g gs ih =>
    intro h
    cases gs with
    | nil => simpa [joinComma] using h g (by simp)
    | cons g2 gs2 =>
      have h1 := h g (by simp)
      have h2 : ∀ x ∈ g2 :: gs2, '\n' ∉ x :=
        fun x hx => h x (List.mem_cons_of_mem g hx)
      exact nl_append h1 (nl_cons (by decide) (ih h2))

theorem commentFor_wf {c : Cert} {x : List Char} (hnl : certNLFree c)
    (h : commentFor c = some x) :
    hasPrefixGo x annMarker = true ∧ lineWF x := by
  unfold commentFor at h
  cases hfp : c.fingerprintRes with
  | none => rw [hfp] at h; cases h
  | some fp =>
    rw [hfp] at h
    obtain rfl := Option.some.inj h
    have hV : '\n' ∉ (if 1 < c.version then " version=".toList ++ itoa c.version
        else []) := by
      split
      · exact nl_append (by decide) (nl_itoa _)
      · simp
    have hG : '\n' ∉ (if c.groups = [] then []
        else " groups=".toList ++ joinComma c.groups) := by
      split
      · simp
      · exact nl_append (by decide) (nl_joinComma _ hnl.1)
    have hfpn : '\n' ∉ fp := hnl.2 fp hfp
    constructor
    · exact hasPrefixGo_mono (hasPrefixGo_mono (hasPrefixGo_mono
        (hasPrefixGo_mono (hasPrefixGo_mono (hasPrefixGo_mono
          (hasPrefixGo_mono (hasPrefixGo_mono (hasPrefixGo_mono
            (hasPrefixGo_of_append annMarker (goQuote c.name)) _) _) _) _) _)
              _) _) _) _
    · refine ⟨_, rfl, ?_⟩
      exact nl_append (nl_append (nl_append (nl_append (nl_append (nl_append
        (nl_append (nl_append (nl_append (by decide) (nl_goQuote _)) hV) hG)
          (by decide)) (nl_pad 4 (nl_itoa _)))
            (nl_cons (by decide) (nl_pad 2 (nl_itoa _))))
              (nl_cons (by decide) (nl_pad 2 (nl_itoa _))))
                (by decide)) hfpn

theorem commentOf_wf {decode : List Char → Option Cert}
    (hd : ∀ s c, decode s = some c → certNLFree c) :
    ∀ s x, commentOf decode s = some x →
      hasPrefixGo x annMarker = true ∧ lineWF x := by
  intro s x h
  unfold commentOf at h
  cases hds : decode s with
  | none => rw [hds] at h; cases h
  | some c =>
    rw [hds] at h
    exact commentFor_wf (hd s c hds) (by simpa using h)

theorem splitOnChar_ne_nil (sep : Char) : ∀ s : List Char,
    splitOnChar sep s ≠ [] := by
  intro s
  cases s with
  | nil => simp [splitOnChar]
  | cons c cs =>
    unfold splitOnChar
    by_cases h : c = sep
    · simp [h]
    · rw [if_neg h]
      cases splitOnChar sep cs <;> simp

theorem getLastD_cons_list (a : List Char) (l : List (List Char))
    (d : List Char) : (a :: l).getLastD d = l.getLastD a := by
  cases l with
  | nil => rfl
  | cons b m => rfl

theorem applyMods_ok : ∀ (mods : List (List Char)) (fe : FormatEntry),
    (∀ p ∈ mods, goodMod p = true) →
    applyMods fe mods = .ok ⟨fe.type,
      ((mods.filterMap fun p =>
        if hasPrefixGo p ['!', '='] then some (p.drop 2) else none
       ).getLastD fe.Exclude),
      (fe.OmitEmpty || mods.any fun p => p == ['?'])⟩ := by
  intro mods
  induction mods with
  | nil =>
    intro fe _
    cases fe
    simp [applyMods, List.getLastD]
  | cons p ps ih =>
    intro fe h
    have hp := h p (List.mem_cons_self p ps)
    have hps : ∀ q ∈ ps, goodMod q = true :=
      fun q hq => h q (List.mem_cons_of_mem p hq)
    by_cases hq : p = ['?']
    · subst hq
      unfold applyMods
      rw [if_pos rfl, ih _ hps]
      rw [List.filterMap_cons, show (if hasPrefixGo ['?'] ['!', '='] = true
        then some (List.drop 2 (['?'] : List Char)) else none) = none from by decide]
      rw [List.any_cons]
      simp
    · have hpre : hasPrefixGo p ['!', '='] = true := by
        unfold goodMod at hp
        rcases Bool.or_eq_true_iff.mp hp with h1 | h1
        · exact absurd (by simpa using h1) hq
        · exact h1
      unfold applyMods
      rw [if_neg (by simpa using hq), if_pos hpre, ih _ hps]
      rw [List.filterMap_cons, if_pos hpre, getLastD_cons_list]
      rw [List.any_cons, show (p == ['?']) = false from by
        rw [beq_eq_false_iff_ne]; exact hq]
      simp

theorem applyMods_err : ∀ (mods : List (List Char)) (fe : FormatEntry)
    (p : List Char), (mods.find? fun q => !goodMod q) = some p →
    applyMods fe mods = .error (.invalidModifier p) := by
  intro mods
  induction mods with
  | nil => intro fe p h; simp [List.find?] at h
  | cons q qs ih =>
    intro fe p h
    by_cases hg : goodMod q = true
    · have hq : (fun x => !goodMod x) q = false := by simp [hg]
      rw [List.find?_cons_of_neg _ (by rw [ hg]; decide)] at h
      unfold applyMods
      unfold goodMod at hg
      rcases Bool.or_eq_true_iff.mp hg with h1 | h1
      · rw [if_pos (by simpa using h1)]
        exact ih _ p h
      · by_cases hq2 : q = ['?']
        · rw [if_pos hq2]
          exact ih _ p h
        · rw [if_neg hq2, if_pos h1]
          exact ih _ p h
    · have hgf : goodMod q = false := by
        revert hg; cases goodMod q <;> simp
      have : ((q :: qs).find? fun x => !goodMod x) = some q :=
        List.find?_cons_of_pos _ (by simp [hgf])
      rw [this] at h
      obtain rfl := Option.some.inj h
      have h1 : ¬ q = ['?'] := by
        intro he
        rw [he] at hgf
        cases hgf
      have h2 : hasPrefixGo q ['!', '='] = false := by
        unfold goodMod at hgf
        exact (Bool.or_eq_false_iff.mp hgf).2
      unfold applyMods
      rw [if_neg h1, if_neg (by simp [h2])]

theorem itoaAux_ne_nil (fuel n : Nat) (h : 0 < fuel) : itoaAux fuel n ≠ [] := by
  cases fuel with
  | zero => cases h
  | succ f =>
    unfold itoaAux
    by_cases h10 : n < 10
    · simp [h10]
    · simp [h10]

theorem itoa_eq_one (n : Nat) : itoa n = ['1'] ↔ n = 1 := by
  constructor
  · intro h
    unfold itoa itoaAux at h
    by_cases h10 : n < 10
    · rw [if_pos h10] at h
      have h1 : digitChar n = '1' := by
        have := congrArg (fun l => List.headI l) h
        simpa using this
      interval_cases n <;> simp_all [digitChar]
    · rw [if_neg h10] at h
      have hlen := congrArg List.length h
      have hne := itoaAux_ne_nil n (n / 10) (by omega)
      have hpos : 0 < (itoaAux n (n / 10)).length :=
        List.length_pos.mpr hne
      simp only [List.length_append, List.length_singleton,
        List.length_cons] at hlen
      omega
  · rintro rfl
    decide

theorem markers_head_ws (w : Char) (hw : w = ' ' ∨ w = '\t')
    (rest : List Char) :
    hasPrefixGo (w :: rest) beginMarker = false ∧
    hasPrefixGo (w :: rest) endMarker = false ∧
    hasPrefixGo (w :: rest) annMarker = false := by
  rcases hw with rfl | rfl <;> exact ⟨rfl, rfl, rfl⟩

theorem run_no_end {cmt : List Char → Option (List Char)} :
    ∀ (ls : List (List Char)) (f : Bool) (o c : List Char),
      (∀ l ∈ ls, hasPrefixGo l endMarker = false) →
      ∃ c2, runLines cmt ⟨true, f, o, c⟩ ls = some ⟨true, f, o, c2⟩ := by
  intro ls
  induction ls with
  | nil => intro f o c _; exact ⟨c, by simp [runLines]⟩
  | cons t ts ih =>
    intro f o c h
    have het := h t (List.mem_cons_self t ts)
    have hts : ∀ l ∈ ts, hasPrefixGo l endMarker = false :=
      fun l hl => h l (List.mem_cons_of_mem t hl)
    by_cases hb : hasPrefixGo t beginMarker = true
    · have hst := @stepLine_begin cmt ⟨true, f, o, c⟩ t hb
      simp only [runLines, hst]
      obtain ⟨c2, hc2⟩ := ih f o (c ++ t) hts
      exact ⟨c2, by simpa using hc2⟩
    · have hb' : hasPrefixGo t beginMarker = false := by
        revert hb; cases hasPrefixGo t beginMarker <;> simp
      by_cases ha : hasPrefixGo t annMarker = true
      · have hst := @stepLine_ann cmt ⟨true, f, o, c⟩ t hb' het ha
        simp only [runLines, hst]
        exact ih f o c hts
      · have ha' : hasPrefixGo t annMarker = false := by
          revert ha; cases hasPrefixGo t annMarker <;> simp
        have hst := @stepLine_in cmt ⟨true, f, o, c⟩ t hb' het ha' rfl
        simp only [runLines, hst]
        obtain ⟨c2, hc2⟩ := ih f o (c ++ t) hts
        exact ⟨c2, by simpa using hc2⟩

/-- C1 counterexample: a file whose cert block is indented by four spaces
is passed through byte-for-byte with no comment line emitted and no block
reported, even with a decoder that succeeds on any input — there is no
`certPadding` capture in the scanner. -/
theorem c1_counterexample :
    processFile (commentOf fun _ =>
        some ⟨['x'], 1, [], [], 2026, 6, 11, some ['a', 'b'], [], [], none⟩)
      false []
      "    -----BEGIN NEBULA CERTIFICATE-----\n    AAAA\n    -----END NEBULA CERTIFICATE-----\n".toList =
    some ⟨false,
      "    -----BEGIN NEBULA CERTIFICATE-----\n    AAAA\n    -----END NEBULA CERTIFICATE-----\n".toList,
      []⟩ := by decide

/-- C1 (amended): the scanner recognizes markers only by a raw prefix
test on the unmodified line, so a BEGIN marker preceded by non-empty
leading whitespace is not recognized: in state OUTSIDE the line passes to
the output verbatim with no state change, no padding is captured, and no
comment line is produced for such a block. -/
theorem c1_amended {cmt : List Char → Option (List Char)} {st : ScanSt}
    {ws text : List Char} (hws : ws ≠ [])
    (hsp : ∀ ch ∈ ws, ch = ' ' ∨ ch = '\t') (hic : st.inCert = false) :
    stepLine cmt st (ws ++ beginMarker ++ text) =
      some { st with outBuf := st.outBuf ++ (ws ++ beginMarker ++ text) } := by
  cases ws with
  | nil => exact absurd rfl hws
  | cons w ws' =>
    obtain ⟨hb, he, ha⟩ := markers_head_ws w (hsp w (List.mem_cons_self w ws'))
      ((ws' ++ beginMarker) ++ text)
    have heq : ((w :: ws') ++ beginMarker ++ text) =
        w :: ((ws' ++ beginMarker) ++ text) := by simp
    rw [heq]
    exact stepLine_out hb he ha hic

/-- Witness for C1 (amended) at a concrete four-space indent. -/
theorem c1_amended_witness :
    stepLine (commentOf fun _ => none) initSt
        ("    ".toList ++ beginMarker ++ ['\n']) =
      some ⟨false, false, "    ".toList ++ beginMarker ++ ['\n'], []⟩ := by
  have := @c1_amended (commentOf fun _ => none) initSt
    "    ".toList ['\n'] (by decide) (by decide) rfl
  simpa [initSt] using this

/-- C2 counterexample: neither an indented plain BEGIN marker nor the V2
BEGIN marker is recognized by the scanner in state OUTSIDE — both lines
pass to the output as ordinary text and the state stays OUTSIDE. -/
theorem c2_counterexample :
    stepLine (commentOf fun _ => none) initSt
        "  -----BEGIN NEBULA CERTIFICATE-----\n".toList =
      some ⟨false, false, "  -----BEGIN NEBULA CERTIFICATE-----\n".toList, []⟩ ∧
    stepLine (commentOf fun _ => none) initSt
        "-----BEGIN NEBULA CERTIFICATE V2-----\n".toList =
      some ⟨false, false, "-----BEGIN NEBULA CERTIFICATE V2-----\n".toList, []⟩ := by
  exact ⟨by decide, by decide⟩

/-- C2 (amended): in state OUTSIDE the scanner treats a line as a BEGIN
marker exactly when the raw, unstripped line starts with the single
recognized prefix `-----BEGIN NEBULA CERTIFICATE-----`; no whitespace is
stripped first and no V2 variant is recognized. -/
theorem c2_amended {cmt : List Char → Option (List Char)} {st : ScanSt}
    (hic : st.inCert = false) (text : List Char) :
    (∃ st', stepLine cmt st text = some st' ∧ st'.inCert = true) ↔
      hasPrefixGo text beginMarker = true := by
  constructor
  · rintro ⟨st', hs, hin⟩
    by_cases hb : hasPrefixGo text beginMarker = true
    · exact hb
    · exfalso
      have hb' : hasPrefixGo text beginMarker = false := by
        revert hb; cases hasPrefixGo text beginMarker <;> simp
      by_cases he : hasPrefixGo text endMarker = true
      · cases hcm : cmt (st.crtBuf ++ text) with
        | none => rw [stepLine_end_none hb' he hcm] at hs; cases hs
        | some a =>
          rw [stepLine_end_some hb' he hcm] at hs
          obtain rfl := Option.some.inj hs
          cases hin
      · have he' : hasPrefixGo text endMarker = false := by
          revert he; cases hasPrefixGo text endMarker <;> simp
        by_cases ha : hasPrefixGo text annMarker = true
        · rw [stepLine_ann hb' he' ha] at hs
          obtain rfl := Option.some.inj hs
          rw [hic] at hin
          cases hin
        · have ha' : hasPrefixGo text annMarker = false := by
            revert ha; cases hasPrefixGo text annMarker <;> simp
          rw [stepLine_out hb' he' ha' hic] at hs
          obtain rfl := Option.some.inj hs
          dsimp only at hin
          rw [hic] at hin
          cases hin
  · intro hb
    exact ⟨_, stepLine_begin hb, rfl⟩

/-- Witness for C2 (amended) at the plain BEGIN marker line. -/
theorem c2_amended_witness :
    ∃ st', stepLine (commentOf fun _ => none) initSt
        "-----BEGIN NEBULA CERTIFICATE-----\n".toList = some st' ∧
      st'.inCert = true :=
  (c2_amended rfl _).mpr (by decide)

/-- C3 counterexample: an indented stale comment line is not dropped (it
passes to the output verbatim), and a comment-prefixed line is dropped
even while the scanner is INSIDE a cert block — so the rule neither
strips leading whitespace nor is evaluated only in state OUTSIDE. -/
theorem c3_counterexample :
    stepLine (commentOf fun _ => none) initSt " # nebula: name=x\n".toList =
      some ⟨false, false, " # nebula: name=x\n".toList, []⟩ ∧
    stepLine (commentOf fun _ => none)
        ⟨true, false, [], "-----BEGIN NEBULA CERTIFICATE-----\n".toList⟩
        "# nebula: name=x\n".toList =
      some ⟨true, false, [], "-----BEGIN NEBULA CERTIFICATE-----\n".toList⟩ := by
  exact ⟨by decide, by decide⟩

/-- C3 (amended): in every state the scanner drops exactly the lines that
literally start with the hardcoded prefix `# nebula: name=` (no leading
whitespace is stripped and no prefix is configurable); a file with an
unindented stale comment line above a block gets it replaced by exactly
one freshly computed line. -/
theorem c3_amended :
    (∀ (cmt : List Char → Option (List Char)) (st : ScanSt) (text : List Char),
      hasPrefixGo text annMarker = true → stepLine cmt st text = some st) ∧
    processFile (commentOf fun _ =>
        some ⟨['x'], 1, [], [], 2026, 6, 11, some ['a', 'b'], [], [], none⟩)
      false []
      "# nebula: name=old\n-----BEGIN NEBULA CERTIFICATE-----\nAAA\n-----END NEBULA CERTIFICATE-----\n".toList =
    some ⟨true,
      "# nebula: name=\"x\" notAfter=2026-06-11 fingerprint=ab\n-----BEGIN NEBULA CERTIFICATE-----\nAAA\n-----END NEBULA CERTIFICATE-----\n".toList,
      []⟩ := by
  constructor
  · intro cmt st text ha
    exact stepLine_ann (not_begin_of_ann ha) (not_end_of_ann ha) ha
  · decide

/-- Witness for C3 (amended): a concrete comment line is dropped in both
states. -/
theorem c3_amended_witness :
    stepLine (commentOf fun _ => none) initSt "# nebula: name=q\n".toList =
      some initSt :=
  c3_amended.1 _ _ _ (by decide)

/-- C8: a zero byte in the first chunk read stops processing before any
marker or comment-line logic runs: the scan returns no error, reports no
certificate found, emits nothing to the output buffer (so the orchestrator
leaves the file untouched), and logs a skip diagnostic exactly when debug
mode is on. -/
theorem c8_binary_guard {cmt : List Char → Option (List Char)} {debug : Bool}
    {path input first : List Char} {rest : List (List Char)}
    (hL : readLines input = first :: rest) (hnul : '\x00' ∈ first) :
    processFile cmt debug path input =
      some ⟨false, [], if debug then [skipBinaryMsg path] else []⟩ := by
  unfold processFile
  rw [hL]
  dsimp only
  rw [if_pos hnul]

/-- Witness for C8 at a concrete binary first line, debug enabled. -/
theorem c8_binary_guard_witness :
    processFile (commentOf fun _ => none) true ['p'] "ab\x00\n".toList =
      some ⟨false, [], [skipBinaryMsg ['p']]⟩ :=
  @c8_binary_guard (commentOf fun _ => none) true ['p'] ("ab\x00\n".toList)
    ("ab\x00\n".toList) [[]] (by decide) (by decide)

/-- C9: when the file ends while the scanner is still INSIDE_CERT (no
line after the unmatched BEGIN has the END prefix), the scan returns
without error, reports only what was found before the unmatched block,
and the output buffer is exactly the state at the unmatched BEGIN — the
buffered certificate content and every later line are discarded. -/
theorem c9_unterminated {cmt : List Char → Option (List Char)}
    {debug : Bool} {path input : List Char} {ls1 ls2 : List (List Char)}
    {st : ScanSt}
    (hsplit : readLines input = ls1 ++ ls2)
    (hnul : '\x00' ∉ (readLines input).headI)
    (hrun : runLines cmt initSt ls1 = some st)
    (hin : st.inCert = true)
    (hend : ∀ l ∈ ls2, hasPrefixGo l endMarker = false) :
    processFile cmt debug path input = some ⟨st.foundCert, st.outBuf, []⟩ := by
  obtain ⟨ic, fc, ob, cb⟩ := st
  dsimp only at hin ⊢
  subst hin
  cases hL : readLines input with
  | nil =>
    rw [hL] at hsplit
    have h1 : ls1 = [] := (List.append_eq_nil.mp hsplit.symm).1
    subst h1
    have h2 := Option.some.inj hrun
    have h3 := congrArg ScanSt.inCert h2
    cases h3
  | cons first rest =>
    unfold processFile
    rw [hL]
    dsimp only
    rw [hL] at hnul
    simp only [List.headI] at hnul
    rw [if_neg hnul]
    rw [← hL, hsplit, runLines_append, hrun]
    simp only [Option.some_bind]
    obtain ⟨c2, hc2⟩ := run_no_end ls2 fc ob cb hend
    rw [hc2]

/-- Witness for C9: a file with one passed-through line and an unmatched
indented-free BEGIN marker followed by a data line. -/
theorem c9_unterminated_witness :
    processFile (commentOf fun _ => none) false []
        "a\n-----BEGIN NEBULA CERTIFICATE-----\nxyz\n".toList =
      some ⟨false, "a\n".toList, []⟩ :=
  @c9_unterminated (commentOf fun _ => none) false []
    ("a\n-----BEGIN NEBULA CERTIFICATE-----\nxyz\n".toList)
    ["a\n".toList, "-----BEGIN NEBULA CERTIFICATE-----\n".toList]
    ["xyz\n".toList, []]
    ⟨true, false, "a\n".toList,
      "-----BEGIN NEBULA CERTIFICATE-----\n".toList⟩
    (by decide) (by decide) (by decide) rfl (by decide)

/-- C4 counterexample: scanning `# nebula: name=x\nb\x00y\n` succeeds and
drops the stale comment line, leaving an output whose first line contains
a zero byte; feeding that output back through the scanner trips the
binary guard, so the second pass returns an empty output buffer, not one
identical to its input. -/
theorem c4_counterexample :
    processFile (commentOf fun _ => none) false []
        "# nebula: name=x\nb\x00y\n".toList =
      some ⟨false, "b\x00y\n".toList, []⟩ ∧
    processFile (commentOf fun _ => none) false [] "b\x00y\n".toList =
      some ⟨false, [], []⟩ ∧
    ("b\x00y\n".toList ≠ ([] : List Char)) := by
  exact ⟨by decide, by decide, by decide⟩

/-- C4 (amended): for every input on which the scan succeeds, if the
rewritten output's first line contains no zero byte (and decoded
certificates carry no newline inside groups or fingerprint, as holds for
well-formed certificates), re-scanning the output buffer succeeds and
returns the identical output buffer and the same found flag; when the
output's first line does contain a zero byte the second scan instead
skips it under the binary guard, reporting no block found, so the file on
disk is still left unchanged. -/
theorem c4_amended {decode : List Char → Option Cert}
    (hd : ∀ s c, decode s = some c → certNLFree c)
    {debug : Bool} {path input : List Char} {r : ScanRes}
    (h1 : processFile (commentOf decode) debug path input = some r)
    (h2 : '\x00' ∉ (readLines r.outBuf).headI) :
    processFile (commentOf decode) debug path r.outBuf =
      some ⟨r.foundCert, r.outBuf, []⟩ := by
  obtain ⟨b, M, hM, hout, hfound⟩ := processFile_emitted (commentOf_wf hd) h1
  rw [hout, hfound]
  rw [hout] at h2
  exact processFile_replay hM debug path h2

/-- Witness for C4 (amended) on a concrete one-line file. -/
theorem c4_amended_witness :
    processFile (commentOf fun _ => none) false [] "a\n".toList =
      some ⟨false, "a\n".toList, []⟩ :=
  @c4_amended (fun _ => none) (fun _ c h => by cases h) false []
    ("a\n".toList) ⟨false, "a\n".toList, []⟩
    (by decide) (by decide)

/-- C5: with the computed field value in hand, a format entry emits
nothing exactly when OmitEmpty is set and the value is empty or Exclude
is non-empty and equals the value (an empty Exclude never suppresses);
in particular `version:!=1` suppresses the field exactly when the
certificate version is 1. -/
theorem c5_suppression :
    (∀ (f : FormatEntry) (c : Cert) (s : List Char), f.String c = some s →
      (f.Format c = some [] ↔
        ((f.OmitEmpty = true ∧ s = []) ∨ (f.Exclude ≠ [] ∧ f.Exclude = s)))) ∧
    (∀ c : Cert, (FormatEntry.mk FormatVersion ['1'] false).Format c = some []
      ↔ c.version = 1) := by
  have main : ∀ (f : FormatEntry) (c : Cert) (s : List Char),
      f.String c = some s →
      (f.Format c = some [] ↔
        ((f.OmitEmpty = true ∧ s = []) ∨ (f.Exclude ≠ [] ∧ f.Exclude = s))) := by
    intro f c s hs
    unfold FormatEntry.Format
    rw [hs]
    dsimp only
    by_cases h1 : f.OmitEmpty = true ∧ s = []
    · rw [if_pos h1]
      exact iff_of_true rfl (Or.inl h1)
    · rw [if_neg h1]
      by_cases h2 : f.Exclude ≠ [] ∧ f.Exclude = s
      · rw [if_pos h2]
        exact iff_of_true rfl (Or.inr h2)
      · rw [if_neg h2]
        by_cases h3 : f.type = FormatJSON
        · rw [if_pos h3]
          simp [h1, h2]
        · rw [if_neg h3]
          by_cases h4 : f.AddQuotes s = true
          · rw [if_pos h4]
            simp [h1, h2]
          · rw [if_neg h4]
            simp [h1, h2]
  refine ⟨main, ?_⟩
  intro c
  have hs : (FormatEntry.mk FormatVersion ['1'] false).String c =
      some (itoa c.version) := rfl
  rw [main _ c _ hs]
  constructor
  · intro h
    rcases h with ⟨h1, _⟩ | ⟨_, h2⟩
    · cases h1
    · exact (itoa_eq_one c.version).mp h2.symm
  · intro h
    right
    exact ⟨by simp, ((itoa_eq_one c.version).mpr h).symm⟩

/-- Witness for C5 at the `version:!=1` entry on a version-1
certificate. -/
theorem c5_suppression_witness :
    (FormatEntry.mk FormatVersion ['1'] false).Format
      ⟨['c', 'a'], 1, [], [], 2026, 6, 11, some ['a', 'b'], [], [], none⟩ =
    some [] :=
  (c5_suppression.2 _).mpr rfl

/-- C6: a non-suppressed entry emits a single leading space and then, for
the `json` type, the raw value with no `key=` wrapper, and for every
other type `type=value`, where the value is `%q`-quoted exactly when some
byte falls outside the class `[-:_a-zA-Z0-9]` and is emitted bare
otherwise. -/
theorem c6_rendering : ∀ (f : FormatEntry) (c : Cert) (s : List Char),
    f.String c = some s →
    ¬((f.OmitEmpty = true ∧ s = []) ∨ (f.Exclude ≠ [] ∧ f.Exclude = s)) →
    f.Format c = some (' ' :: (if f.type = FormatJSON then s
      else f.type.str ++ '=' :: (if s.all basicChar then s else goQuote s))) := by
  intro f c s hs hns
  have hn1 : ¬(f.OmitEmpty = true ∧ s = []) := fun hc => hns (Or.inl hc)
  have hn2 : ¬(f.Exclude ≠ [] ∧ f.Exclude = s) := fun hc => hns (Or.inr hc)
  unfold FormatEntry.Format
  rw [hs]
  dsimp only
  rw [if_neg hn1, if_neg hn2]
  by_cases hj : f.type = FormatJSON
  · rw [if_pos hj, if_pos hj]
  · rw [if_neg hj, if_neg hj]
    unfold FormatEntry.AddQuotes reBasicStringMatch
    by_cases hq : s.all basicChar = true
    · rw [if_neg (by rw [hq]; decide), if_pos hq]
    · have hqf : s.all basicChar = false := by
        revert hq; cases s.all basicChar <;> simp
      rw [if_pos (by rw [hqf]; rfl), if_neg hq]

/-- Witness for C6: a groups value containing a space is double-quoted, a
pure-hex fingerprint value is emitted bare. -/
theorem c6_rendering_witness :
    (FormatEntry.mk FormatGroups [] false).Format
        ⟨['c', 'a'], 1, [], ["a b".toList], 2026, 6, 11,
          some "0c0f34fa".toList, [], [], none⟩ =
      some " groups=\"a b\"".toList ∧
    (FormatEntry.mk FormatFingerprint [] false).Format
        ⟨['c', 'a'], 1, [], ["a b".toList], 2026, 6, 11,
          some "0c0f34fa".toList, [], [], none⟩ =
      some " fingerprint=0c0f34fa".toList := by
  constructor
  · have := c6_rendering (FormatEntry.mk FormatGroups [] false)
      ⟨['c', 'a'], 1, [], ["a b".toList], 2026, 6, 11,
        some "0c0f34fa".toList, [], [], none⟩
      "a b".toList (by decide) (by decide)
    exact this
  · have := c6_rendering (FormatEntry.mk FormatFingerprint [] false)
      ⟨['c', 'a'], 1, [], ["a b".toList], 2026, 6, 11,
        some "0c0f34fa".toList, [], [], none⟩
      "0c0f34fa".toList (by decide) (by decide)
    exact this

/-- C7: the format-string parser splits the configuration on commas; for
each entry it splits on colons, matches the type token case-insensitively
against the nine recognized names, fails with an invalid-type error
naming the whole entry text for an unrecognized type, applies `?` by
setting OmitEmpty and `!=v` by setting Exclude to `v` (last one wins),
fails with an invalid-modifier error naming the first offending token,
and on success returns the entries in input order, duplicates
preserved. -/
theorem c7_format_dsl :
    (∀ entry : List Char,
      ParseFormatType ((splitOnChar ':' entry).headI) = FormatInvalid →
      ParseFormatEntry entry = .error (.invalidType entry)) ∧
    (∀ (entry p : List Char),
      ParseFormatType ((splitOnChar ':' entry).headI) ≠ FormatInvalid →
      ((splitOnChar ':' entry).tail.find? fun q => !goodMod q) = some p →
      ParseFormatEntry entry = .error (.invalidModifier p)) ∧
    (∀ entry : List Char,
      ParseFormatType ((splitOnChar ':' entry).headI) ≠ FormatInvalid →
      (∀ q ∈ (splitOnChar ':' entry).tail, goodMod q = true) →
      ParseFormatEntry entry = .ok
        ⟨ParseFormatType ((splitOnChar ':' entry).headI),
         (((splitOnChar ':' entry).tail.filterMap fun q =>
            if hasPrefixGo q ['!', '='] then some (q.drop 2) else none
          ).getLastD []),
         (splitOnChar ':' entry).tail.any fun q => q == ['?']⟩) ∧
    (∀ s : List Char, ParseFormatType s ≠ FormatInvalid ↔ lowerStr s ∈
      ["name".toList, "version".toList, "curve".toList, "groups".toList,
       "notafter".toList, "fingerprint".toList, "networks".toList,
       "unsafenetworks".toList, "json".toList]) ∧
    (∀ (es : List (List Char)) (fes : List FormatEntry),
      parseAll es = .ok fes → fes.length = es.length ∧
      ∀ i (hi : i < es.length) (hf : i < fes.length),
        ParseFormatEntry (es.get ⟨i, hi⟩) = .ok (fes.get ⟨i, hf⟩)) := by
  refine ⟨?_, ?_, ?_, ?_, ?_⟩
  · intro entry hty
    unfold ParseFormatEntry
    cases hsp : splitOnChar ':' entry with
    | nil => rfl
    | cons p0 mods =>
      rw [hsp] at hty
      simp only [List.headI] at hty
      dsimp only
      rw [if_pos hty]
  · intro entry p hty hfind
    unfold ParseFormatEntry
    cases hsp : splitOnChar ':' entry with
    | nil => exact absurd hsp (splitOnChar_ne_nil ':' entry)
    | cons p0 mods =>
      rw [hsp] at hty hfind
      simp only [List.headI] at hty
      simp only [List.tail_cons] at hfind
      dsimp only
      rw [if_neg hty]
      exact applyMods_err mods _ p hfind
  · intro entry hty hmods
    unfold ParseFormatEntry
    cases hsp : splitOnChar ':' entry with
    | nil => exact absurd hsp (splitOnChar_ne_nil ':' entry)
    | cons p0 mods =>
      rw [hsp] at hty hmods
      simp only [List.headI, List.tail_cons] at hty hmods ⊢
      rw [if_neg hty]
      exact applyMods_ok mods _ hmods
  · intro s
    unfold ParseFormatType
    split_ifs with h1 h2 h3 h4 h5 h6 h7 h8 h9 <;> simp_all
  · intro es
    induction es with
    | nil =>
      intro fes h
      have : fes = [] := by
        have h2 := h
        unfold parseAll at h2
        exact (Except.ok.inj h2).symm
      subst this
      exact ⟨rfl, fun i hi => absurd hi (by simp)⟩
    | cons e es ih =>
      intro fes h
      unfold parseAll at h
      cases hpe : ParseFormatEntry e with
      | error err => rw [hpe] at h; cases h
      | ok fe =>
        rw [hpe] at h
        cases hpa : parseAll es with
        | error err => rw [hpa] at h; cases h
        | ok fes' =>
          rw [hpa] at h
          have : fe :: fes' = fes := Except.ok.inj h
          subst this
          obtain ⟨hlen, hidx⟩ := ih fes' hpa
          refine ⟨by simp [hlen], ?_⟩
          intro i hi hf
          cases i with
          | zero => simpa using hpe
          | succ j =>
            have := hidx j (by simpa using hi) (by simpa using hf)
            simpa using this

/-- Witness for C7: `version:?:!=1` parses to the version entry with
OmitEmpty set and Exclude `1`. -/
theorem c7_format_dsl_witness :
    ParseFormatEntry "version:?:!=1".toList =
      .ok ⟨FormatVersion, ['1'], true⟩ := by
  have := c7_format_dsl.2.2.1 "version:?:!=1".toList (by decide) (by decide)
  exact this

/-- C10: the `comment` routine used by the scanner hardcodes its output
shape rather than going through the FormatEntry subsystem: the name is
always `%q`-quoted (explicit surrounding double quotes even for bare-safe
names), groups are always joined raw with no quoting (even when a group
contains a space, where the formatter would quote), and the version field
appears exactly when the version is strictly greater than 1. -/
theorem c10_comment_hardcoded :
    (∀ (name : List Char) (version : Nat) (curveStr : List Char)
      (groups : List (List Char)) (y m d : Nat) (fp : List Char)
      (nets unets : List (List Char)) (js : Option (List Char)),
      commentFor ⟨name, version, curveStr, groups, y, m, d, some fp,
          nets, unets, js⟩ =
        some ("# nebula: name=".toList ++ ('"' :: quoteBody name ++ ['"'])
          ++ (if 1 < version then " version=".toList ++ itoa version else [])
          ++ (if groups = [] then []
              else " groups=".toList ++ joinComma groups)
          ++ " notAfter=".toList ++ padZero 4 (itoa y)
          ++ '-' :: padZero 2 (itoa m) ++ '-' :: padZero 2 (itoa d)
          ++ " fingerprint=".toList ++ fp ++ ['\n'])) ∧
    (FormatEntry.mk FormatName [] false).Format
        ⟨['c', 'a'], 1, [], ["a b".toList], 2026, 6, 11,
          some ['a', 'b'], [], [], none⟩ =
      some " name=ca".toList ∧
    (FormatEntry.mk FormatGroups [] false).Format
        ⟨['c', 'a'], 1, [], ["a b".toList], 2026, 6, 11,
          some ['a', 'b'], [], [], none⟩ =
      some " groups=\"a b\"".toList ∧
    commentFor ⟨['c', 'a'], 1, [], ["a b".toList], 2026, 6, 11,
        some ['a', 'b'], [], [], none⟩ =
      some "# nebula: name=\"ca\" groups=a b notAfter=2026-06-11 fingerprint=ab\n".toList ∧
    commentFor ⟨['c', 'a'], 2, [], [], 2026, 6, 11,
        some ['a', 'b'], [], [], none⟩ =
      some "# nebula: name=\"ca\" version=2 notAfter=2026-06-11 fingerprint=ab\n".toList := by
  refine ⟨?_, by decide, by decide, by decide, by decide⟩
  intro name version curveStr groups y m d fp nets unets js
  rfl
